import Mathlib

/-!
# Verification of the label-designer master/override, grid-layout and z-order core

Shallow embedding of the TypeScript sources:
* `src/lib/masterOverride.ts` — master/override composition engine
* `src/lib/templates.ts` and the extended copy in `src/unnamed/part_009` —
  grid layout (`getLabelPosition`, `hasAdjacentLabel`, `getLabelClipRect`)
* `src/store/designStore.ts` — z-order operations (`bringForward`, `sendBackward`)
* `src/components/Canvas/TransformControls.tsx` — rotation-aware resize math

Conventions: TypeScript `number` values that hold millimeter/pixel quantities
are modelled as `ℚ` (the code performs no rounding in the modelled paths);
integer indices and z-indexes as `Int`; JavaScript `Array.prototype.sort`
(stable since ES2019) is modelled by `List.mergeSort`, which Lean proves
stable (`List.sublist_mergeSort`).  Object *identity* (needed for the
aliasing claim C3) is modelled by pairing each element value with a `Nat`
address (`Obj`); `{...e}` spreads allocate a fresh address.
-/

set_option linter.unusedVariables false

/-- An element of the design, `DesignElement` in `src/types`.  The tag-specific
payload is represented by the fields below; the element `id` is immutable once
created (data-model invariant), so the patch record (`ElementPatch`) carries no
`id` field.  The field `rotationDeg` embeds the source field `rotation`
(degrees). -/
structure DesignElement where
  id : String
  zIndex : Int
  x : ℚ
  y : ℚ
  width : ℚ
  height : ℚ
  rotationDeg : ℚ
  content : String
  visible : Bool
  locked : Bool
deriving DecidableEq

/-- A partial-field patch, `Partial<DesignElement>` as stored in
`ElementOverride.overrides`: every patchable field is optional. -/
structure ElementPatch where
  zIndex : Option Int := none
  x : Option ℚ := none
  y : Option ℚ := none
  width : Option ℚ := none
  height : Option ℚ := none
  rotationDeg : Option ℚ := none
  content : Option String := none
  visible : Option Bool := none
  locked : Option Bool := none
deriving DecidableEq

/-- The JavaScript spread-merge `{...masterElement, ...overrides}`: patch
fields replace, absent fields retain the master value. -/
def applyPatch (m : DesignElement) (p : ElementPatch) : DesignElement where
  id := m.id
  zIndex := p.zIndex.getD m.zIndex
  x := p.x.getD m.x
  y := p.y.getD m.y
  width := p.width.getD m.width
  height := p.height.getD m.height
  rotationDeg := p.rotationDeg.getD m.rotationDeg
  content := p.content.getD m.content
  visible := p.visible.getD m.visible
  locked := p.locked.getD m.locked

/-- One entry of `LabelOverride.elementOverrides` (`src/types`). -/
structure ElementOverride where
  elementId : String
  overrides : ElementPatch
deriving DecidableEq

/-- Embeds `MasterLabel` from `src/types`: the canonical element list. -/
structure MasterLabel where
  elements : List DesignElement
  backgroundColor : Option String := none
deriving DecidableEq

/-- Embeds `LabelOverride` from `src/types`: per-slot divergence record. -/
structure LabelOverride where
  labelIndex : Int
  elementOverrides : List ElementOverride
  hiddenElementIds : List String
  additionalElements : List DesignElement
deriving DecidableEq

/-- The comparator of `result.sort((a, b) => a.zIndex - b.zIndex)` in
`getEffectiveElements` (`masterOverride.ts` line 59), as a boolean
less-or-equal test. -/
def zleb (a b : DesignElement) : Bool := decide (a.zIndex ≤ b.zIndex)

/-- The master-element traversal of `getEffectiveElements`
(`masterOverride.ts` lines 31-52): skip hidden ids, patch overridden
elements, copy the rest. -/
def mergeMaster (o : LabelOverride) : List DesignElement → List DesignElement
  | [] => []
  | m :: rest =>
    if m.id ∈ o.hiddenElementIds then
      mergeMaster o rest
    else
      match o.elementOverrides.find? (fun eo => decide (eo.elementId = m.id)) with
      | some eo => applyPatch m eo.overrides :: mergeMaster o rest
      | none => m :: mergeMaster o rest

/-- The `result` list of `getEffectiveElements` immediately before the final
sort (`masterOverride.ts` lines 25-56). -/
def effectiveUnsorted (masterLabel : MasterLabel) (override : Option LabelOverride) :
    List DesignElement :=
  match override with
  | none => masterLabel.elements
  | some o => mergeMaster o masterLabel.elements ++ o.additionalElements

/-- Embeds `getEffectiveElements` (`masterOverride.ts` lines 21-62): merge master
with overrides, then stable-sort by `zIndex` ascending. -/
def getEffectiveElements (masterLabel : MasterLabel) (override : Option LabelOverride) :
    List DesignElement :=
  (effectiveUnsorted masterLabel override).mergeSort zleb

/-- Embeds `removeElementOverride` (`masterOverride.ts` lines 141-152). -/
def removeElementOverride (elementId : String) (override : LabelOverride) : LabelOverride :=
  { override with
    elementOverrides :=
      override.elementOverrides.filter (fun eo => decide (eo.elementId ≠ elementId))
    hiddenElementIds :=
      override.hiddenElementIds.filter (fun i => decide (i ≠ elementId)) }

/-- Embeds `resetLabelOverrides` (`masterOverride.ts` lines 227-234). -/
def resetLabelOverrides (labelIndex : Int) : LabelOverride :=
  { labelIndex := labelIndex
    elementOverrides := []
    hiddenElementIds := []
    additionalElements := [] }

/-- Embeds `resetElementOverride` (`masterOverride.ts` lines 239-250). -/
def resetElementOverride (elementId : String) (override : LabelOverride) : LabelOverride :=
  { override with
    elementOverrides :=
      override.elementOverrides.filter (fun eo => decide (eo.elementId ≠ elementId))
    hiddenElementIds :=
      override.hiddenElementIds.filter (fun i => decide (i ≠ elementId)) }

/-! ## Z-order operations (`designStore.ts`)

The store actions `bringForward` and `sendBackward` (lines 329-395) read
`state.masterLabel.elements` and replace it; they are embedded as functions
on the element list. -/

/-- The descending comparator `(a, b) => b.zIndex - a.zIndex` used by
`sendBackward` to sort the lower-zIndex candidates. -/
def zgeb (a b : DesignElement) : Bool := decide (b.zIndex ≤ a.zIndex)

/-- Embeds `bringForward` (`designStore.ts` lines 329-361): find the element
with the given id, pick the head of the ascending-sorted strictly-higher
zIndex candidates, and swap the two zIndex values by id; no-op when the id is
absent or nothing is higher. -/
def bringForward (elementId : String) (elements : List DesignElement) : List DesignElement :=
  match elements.find? (fun el => decide (el.id = elementId)) with
  | none => elements
  | some currentElement =>
    match ((elements.filter (fun el => decide (currentElement.zIndex < el.zIndex))).mergeSort
        zleb).head? with
    | none => elements
    | some nextElement =>
      elements.map (fun el =>
        if el.id = elementId then { el with zIndex := nextElement.zIndex }
        else if el.id = nextElement.id then { el with zIndex := currentElement.zIndex }
        else el)

/-- Embeds `sendBackward` (`designStore.ts` lines 363-395): dual of
`bringForward` with the strictly-lower candidates sorted descending. -/
def sendBackward (elementId : String) (elements : List DesignElement) : List DesignElement :=
  match elements.find? (fun el => decide (el.id = elementId)) with
  | none => elements
  | some currentElement =>
    match ((elements.filter (fun el => decide (el.zIndex < currentElement.zIndex))).mergeSort
        zgeb).head? with
    | none => elements
    | some prevElement =>
      elements.map (fun el =>
        if el.id = elementId then { el with zIndex := prevElement.zIndex }
        else if el.id = prevElement.id then { el with zIndex := currentElement.zIndex }
        else el)

/-- The resolved rendering order of an element list: the stable zIndex sort
applied by `getEffectiveElements`. -/
def renderOrder (elements : List DesignElement) : List DesignElement :=
  elements.mergeSort zleb

/-- The visual position of the element with the given id in the resolved
rendering order. -/
def rankOf (elements : List DesignElement) (elementId : String) : Nat :=
  ((renderOrder elements).map DesignElement.id).indexOf elementId

/-! ## Grid layout module (`templates.ts`, with the clipping functions of
`src/unnamed/part_009`) -/

/-- Embeds `SheetConfig` from `src/types`: the physical sheet geometry. -/
structure SheetConfig where
  pageSize : String
  orientation : String
  width : ℚ
  height : ℚ
  marginTop : ℚ
  marginRight : ℚ
  marginBottom : ℚ
  marginLeft : ℚ
deriving DecidableEq

/-- Embeds `LabelTemplate` from `src/types`: the physical grid definition. -/
structure LabelTemplate where
  id : String
  name : String
  description : String
  rows : Int
  columns : Int
  labelWidth : ℚ
  labelHeight : ℚ
  horizontalSpacing : ℚ
  verticalSpacing : ℚ
  offsetTop : ℚ
  offsetLeft : ℚ
  sheetConfig : SheetConfig
deriving DecidableEq

/-- The record returned by `getLabelPosition`. -/
structure LabelPosition where
  x : ℚ
  y : ℚ
  row : Int
  col : Int
deriving DecidableEq

/-- Embeds `getLabelPosition` (`templates.ts` lines 309-331, identical in
`part_009`).  JavaScript `Math.floor(labelIndex / columns)` is `Int.fdiv`;
the JavaScript remainder `labelIndex % columns` agrees with `Int.emod`
because the range guard forces `0 ≤ labelIndex`. -/
def getLabelPosition (template : LabelTemplate) (labelIndex : Int) : Option LabelPosition :=
  let totalLabels := template.rows * template.columns
  if labelIndex < 0 ∨ totalLabels ≤ labelIndex then none
  else
    let row := labelIndex.fdiv template.columns
    let col := labelIndex % template.columns
    let x := template.offsetLeft + (col : ℚ) * (template.labelWidth + template.horizontalSpacing)
    let y := template.offsetTop + (row : ℚ) * (template.labelHeight + template.verticalSpacing)
    some { x := x, y := y, row := row, col := col }

/-- The four sides of a label slot. -/
inductive Side where
  | left
  | right
  | top
  | bottom
deriving DecidableEq

/-- Embeds `hasAdjacentLabel` (`part_009` lines 343-365). -/
def hasAdjacentLabel (template : LabelTemplate) (labelIndex : Int) (side : Side) : Bool :=
  match getLabelPosition template labelIndex with
  | none => false
  | some position =>
    match side with
    | Side.left => decide (0 < position.col)
    | Side.right => decide (position.col < template.columns - 1)
    | Side.top => decide (0 < position.row)
    | Side.bottom => decide (position.row < template.rows - 1)

/-- The rectangle returned by `getLabelClipRect`. -/
structure ClipRect where
  x : ℚ
  y : ℚ
  width : ℚ
  height : ℚ
deriving DecidableEq

/-- Embeds `getLabelClipRect` (`part_009` lines 374-427): null when out of
range or when no edge has a neighbor; otherwise clip at the label boundary on
neighbored edges, and on free edges extend left/top to
`max 0 (boundary - 1000)` and right/bottom to `sheet + 1000`. -/
def getLabelClipRect (template : LabelTemplate) (labelIndex : Int) : Option ClipRect :=
  match getLabelPosition template labelIndex with
  | none => none
  | some position =>
    let hasLeft := hasAdjacentLabel template labelIndex Side.left
    let hasRight := hasAdjacentLabel template labelIndex Side.right
    let hasTop := hasAdjacentLabel template labelIndex Side.top
    let hasBottom := hasAdjacentLabel template labelIndex Side.bottom
    if !hasLeft && !hasRight && !hasTop && !hasBottom then none
    else
      let sheetWidth := template.sheetConfig.width
      let sheetHeight := template.sheetConfig.height
      let overflowExtension : ℚ := 1000
      let labelLeft := position.x
      let clipX := if hasLeft then labelLeft else max 0 (labelLeft - overflowExtension)
      let labelTop := position.y
      let clipY := if hasTop then labelTop else max 0 (labelTop - overflowExtension)
      let labelRight := labelLeft + template.labelWidth
      let clipRight := if hasRight then labelRight else sheetWidth + overflowExtension
      let labelBottom := labelTop + template.labelHeight
      let clipBottom := if hasBottom then labelBottom else sheetHeight + overflowExtension
      some { x := clipX, y := clipY, width := clipRight - clipX, height := clipBottom - clipY }

/-! ## Object-identity model of `getEffectiveElements`

JavaScript distinguishes object identity from structural equality.  To settle
the aliasing part of claim C3 the element objects are modelled as values
paired with a `Nat` address; a `{...e}` spread allocates the next fresh
address, while `[...xs]`, `push` and the in-place `sort` move references
without copying. -/

/-- A heap object: an element value at an address. -/
structure Obj where
  addr : Nat
  val : DesignElement
deriving DecidableEq

/-- A master label whose element list holds object references. -/
structure MasterLabelRef where
  elements : List Obj
  backgroundColor : Option String := none
deriving DecidableEq

/-- A label override whose `additionalElements` hold object references. -/
structure LabelOverrideRef where
  labelIndex : Int
  elementOverrides : List ElementOverride
  hiddenElementIds : List String
  additionalElements : List Obj
deriving DecidableEq

/-- The zIndex comparator lifted to objects (it reads only the value). -/
def zlebObj (a b : Obj) : Bool := zleb a.val b.val

/-- Forgets addresses in a master label. -/
def stripMaster (m : MasterLabelRef) : MasterLabel :=
  { elements := m.elements.map Obj.val, backgroundColor := m.backgroundColor }

/-- Forgets addresses in an override record. -/
def stripOverride (o : LabelOverrideRef) : LabelOverride :=
  { labelIndex := o.labelIndex
    elementOverrides := o.elementOverrides
    hiddenElementIds := o.hiddenElementIds
    additionalElements := o.additionalElements.map Obj.val }

/-- The master traversal of `getEffectiveElements` at the object level: every
emitted master-derived element is a fresh allocation (`{...masterElement}` or
`{...masterElement, ...overrides}`), consuming addresses from `n` upward;
returns the emitted objects and the next free address. -/
def mergeMasterRef (o : LabelOverrideRef) : List Obj → Nat → List Obj × Nat
  | [], n => ([], n)
  | m :: rest, n =>
    if m.val.id ∈ o.hiddenElementIds then
      mergeMasterRef o rest n
    else
      match o.elementOverrides.find? (fun eo => decide (eo.elementId = m.val.id)) with
      | some eo =>
        let tail := mergeMasterRef o rest (n + 1)
        (⟨n, applyPatch m.val eo.overrides⟩ :: tail.1, tail.2)
      | none =>
        let tail := mergeMasterRef o rest (n + 1)
        (⟨n, m.val⟩ :: tail.1, tail.2)

/-- Object-level `getEffectiveElements` (`masterOverride.ts` lines 21-62):
with no override, `[...masterLabel.elements]` is a new list whose entries are
the master's own objects (no copies, no allocation); with an override, the
master traversal allocates fresh copies and `additionalElements` are appended
as the override's own objects.  The final in-place sort moves references. -/
def getEffectiveElementsRef (masterLabel : MasterLabelRef)
    (override : Option LabelOverrideRef) (fresh : Nat) : List Obj × Nat :=
  match override with
  | none => (masterLabel.elements.mergeSort zlebObj, fresh)
  | some o =>
    let merged := mergeMasterRef o masterLabel.elements fresh
    ((merged.1 ++ o.additionalElements).mergeSort zlebObj, merged.2)



/-! ## Rotation-aware resize math (`TransformControls.tsx`)

The resize branch of `handleMouseMove` (lines 53-176) is a pure function of
the drag-start transform, the element rotation, the handle, the screen-space
pixel delta, the zoom and the DPI.  The code computes
`cos = Math.cos(angleRad)` and `sin = Math.sin(angleRad)` and uses only those
two values afterwards, so the embedding takes the cosine and sine of the
rotation as rational parameters (`co`, `si`); for the 90-degree rotation of
claim C7 these are exactly 0 and 1. -/

/-- An element transform (`element.transform`): position and size in mm,
rotation in degrees (field `rotation` in the source). -/
structure Transform where
  x : ℚ
  y : ℚ
  width : ℚ
  height : ℚ
  rotationDeg : ℚ
deriving DecidableEq

/-- The eight resize handles of `TransformControls` (the `rotate` handle is
a separate branch not modelled here). -/
inductive Handle where
  | nw
  | n
  | ne
  | e
  | se
  | s
  | sw
  | w
deriving DecidableEq

/-- The resize branch of `handleMouseMove` (`TransformControls.tsx` lines
53-176): divide the pixel delta by zoom, convert px to mm
(`px * 25.4 / dpi`), rotate the screen-space delta by the negative rotation
(`dxMm = dx*cos + dy*sin`, `dyMm = -dx*sin + dy*cos`), dispatch on the
handle, clamp sizes at 5 mm, and rotate any local position shift forward
before adding it to world x/y.  `shiftKey` enables the aspect-ratio branch
(corner handles only). -/
def applyResizeDrag (startTransform : Transform) (co si : ℚ) (dragType : Handle)
    (deltaXpx deltaYpx zoom dpi : ℚ) (shiftKey : Bool) : Transform :=
  let deltaX := deltaXpx / zoom
  let deltaY := deltaYpx / zoom
  let dxMmScreen := deltaX * 25.4 / dpi
  let dyMmScreen := deltaY * 25.4 / dpi
  let dxMm := dxMmScreen * co + dyMmScreen * si
  let dyMm := -dxMmScreen * si + dyMmScreen * co
  let dW : ℚ :=
    match dragType with
    | Handle.e => dxMm
    | Handle.w => -dxMm
    | Handle.s => 0
    | Handle.n => 0
    | Handle.se => dxMm
    | Handle.sw => -dxMm
    | Handle.ne => dxMm
    | Handle.nw => -dxMm
  let dH : ℚ :=
    match dragType with
    | Handle.e => 0
    | Handle.w => 0
    | Handle.s => dyMm
    | Handle.n => -dyMm
    | Handle.se => dyMm
    | Handle.sw => dyMm
    | Handle.ne => -dyMm
    | Handle.nw => -dyMm
  let dXLocal : ℚ :=
    match dragType with
    | Handle.w => dxMm
    | Handle.sw => dxMm
    | Handle.nw => dxMm
    | _ => 0
  let dYLocal : ℚ :=
    match dragType with
    | Handle.n => dyMm
    | Handle.ne => dyMm
    | Handle.nw => dyMm
    | _ => 0
  let isCorner : Bool :=
    match dragType with
    | Handle.nw => true
    | Handle.ne => true
    | Handle.sw => true
    | Handle.se => true
    | _ => false
  if shiftKey && isCorner then
    let aspectRatio := startTransform.width / startTransform.height
    let newWidth := max 5 (startTransform.width + dW)
    let newHeight := max 5 (startTransform.height + dH)
    let finalWidth := if |dW| > |dH| then newWidth else newHeight * aspectRatio
    let finalHeight := if |dW| > |dH| then newWidth / aspectRatio else newHeight
    let widthDelta := finalWidth - startTransform.width
    let heightDelta := finalHeight - startTransform.height
    let dXL : ℚ :=
      match dragType with
      | Handle.nw => -widthDelta
      | Handle.sw => -widthDelta
      | _ => 0
    let dYL : ℚ :=
      match dragType with
      | Handle.nw => -heightDelta
      | Handle.ne => -heightDelta
      | _ => 0
    let dXWorld := dXL * co - dYL * si
    let dYWorld := dXL * si + dYL * co
    { x := startTransform.x + dXWorld
      y := startTransform.y + dYWorld
      width := finalWidth
      height := finalHeight
      rotationDeg := startTransform.rotationDeg }
  else
    let finalWidth := max 5 (startTransform.width + dW)
    let finalHeight := max 5 (startTransform.height + dH)
    let dXWorld := dXLocal * co - dYLocal * si
    let dYWorld := dXLocal * si + dYLocal * co
    { x := startTransform.x + dXWorld
      y := startTransform.y + dYWorld
      width := finalWidth
      height := finalHeight
      rotationDeg := startTransform.rotationDeg }

/-! ## Concrete example inputs (used by witnesses and counterexamples) -/

/-- A drag-start transform rotated 90 degrees. -/
def startRot90 : Transform :=
  { x := 10, y := 20, width := 30, height := 40, rotationDeg := 90 }

/-- The Letter-portrait sheet (`SHEET_LETTER_PORTRAIT` in `templates.ts`). -/
def sheetLetter : SheetConfig :=
  { pageSize := "Letter", orientation := "portrait", width := 215.9, height := 279.4
    marginTop := 12.7, marginRight := 12.7, marginBottom := 12.7, marginLeft := 12.7 }

/-- The 5-row, 2-column grid of spec test 6 (Avery-5163-like geometry). -/
def templateGrid52 : LabelTemplate :=
  { id := "test-5x2", name := "Test 5x2", description := "five rows of two labels"
    rows := 5, columns := 2, labelWidth := 101.6, labelHeight := 50.8
    horizontalSpacing := 3.175, verticalSpacing := 0
    offsetTop := 12.7, offsetLeft := 4.7625, sheetConfig := sheetLetter }

/-- A small square custom sheet. -/
def sheetSquare100 : SheetConfig :=
  { pageSize := "Custom", orientation := "portrait", width := 100, height := 100
    marginTop := 0, marginRight := 0, marginBottom := 0, marginLeft := 0 }

/-- A one-row, two-column template on the square sheet: slot 0 has a neighbor
only on its right edge. -/
def templateRow2 : LabelTemplate :=
  { id := "row2", name := "Row 2", description := "one row of two labels"
    rows := 1, columns := 2, labelWidth := 10, labelHeight := 10
    horizontalSpacing := 0, verticalSpacing := 0
    offsetTop := 5, offsetLeft := 5, sheetConfig := sheetSquare100 }

/-- Example element with id `a`, zIndex 0. -/
def elemA : DesignElement :=
  { id := "a", zIndex := 0, x := 0, y := 0, width := 10, height := 10
    rotationDeg := 0, content := "A", visible := true, locked := false }

/-- Example element with id `b`, zIndex 1. -/
def elemB : DesignElement :=
  { id := "b", zIndex := 1, x := 0, y := 0, width := 10, height := 10
    rotationDeg := 0, content := "B", visible := true, locked := false }

/-- Example element with id `c`, zIndex 2. -/
def elemC : DesignElement :=
  { id := "c", zIndex := 2, x := 0, y := 0, width := 10, height := 10
    rotationDeg := 0, content := "C", visible := true, locked := false }

/-- Example slot-specific element with id `d`, zIndex 5. -/
def elemD : DesignElement :=
  { id := "d", zIndex := 5, x := 1, y := 1, width := 4, height := 4
    rotationDeg := 0, content := "D", visible := true, locked := false }

/-- Example master owning elements `a` and `b`. -/
def masterAB : MasterLabel := { elements := [elemA, elemB] }

/-- Example override that both hides element `a` and patches it, and adds a
slot-specific element `d` — the contradictory state of claim C1. -/
def overrideHideA : LabelOverride :=
  { labelIndex := 0
    elementOverrides := [{ elementId := "a", overrides := { x := some 5 } }]
    hiddenElementIds := ["a"]
    additionalElements := [elemD] }

/-- A one-element master at the object level: element `a` lives at address 0. -/
def masterRefA : MasterLabelRef := { elements := [⟨0, elemA⟩] }

/-- An object-level override patching `a` and adding object `d` at address 50. -/
def overrideRefD : LabelOverrideRef :=
  { labelIndex := 0
    elementOverrides := [{ elementId := "a", overrides := { x := some 5 } }]
    hiddenElementIds := []
    additionalElements := [⟨50, elemD⟩] }

/-- Element `b` with zIndex lowered to 0 (ties with `a`). -/
def elemBz0 : DesignElement := { elemB with zIndex := 0 }

/-- Element `c` with zIndex lowered to 1. -/
def elemCz1 : DesignElement := { elemC with zIndex := 1 }

/-- A three-element stack with a zIndex tie: `a` and `b` at 0, `c` at 1. -/
def listDup : List DesignElement := [elemA, elemBz0, elemCz1]

/-- The three-element stack [A, B, C] with distinct zIndexes 0, 1, 2. -/
def listABC : List DesignElement := [elemA, elemB, elemC]

/-! ## Basic comparator facts -/

theorem zleb_trans : ∀ a b c : DesignElement, zleb a b → zleb b c → zleb a c := by
  intro a b c hab hbc
  simp only [zleb, decide_eq_true_eq] at *
  omega

theorem zleb_total : ∀ a b : DesignElement, zleb a b || zleb b a := by
  intro a b
  simp only [zleb]
  by_cases h : a.zIndex ≤ b.zIndex
  · simp [h]
  · simp [h]; omega

/-- Traversal `mergeMaster` with an empty override record is the identity traversal. -/
theorem mergeMaster_empty (i : Int) (l : List DesignElement) :
    mergeMaster (resetLabelOverrides i) l = l := by
  induction l with
  | nil => rfl
  | cons m rest ih =>
    simp only [resetLabelOverrides] at ih ⊢
    simp [mergeMaster, ih]

/-- C8: an empty-but-present override record (as produced by
`resetLabelOverrides`) is behaviorally identical to an absent override:
`getEffectiveElements M (some (resetLabelOverrides i)) =
getEffectiveElements M none`, for every master `M` and slot index `i`. -/
theorem empty_override_c8 (M : MasterLabel) (i : Int) :
    getEffectiveElements M (some (resetLabelOverrides i)) = getEffectiveElements M none := by
  simp only [getEffectiveElements, effectiveUnsorted]
  rw [mergeMaster_empty]
  simp [resetLabelOverrides]

/-- C9: `removeElementOverride` and `resetElementOverride` are the same
function: both drop every `elementOverrides` entry for the id and drop the id
from `hiddenElementIds`, keeping `additionalElements` and `labelIndex`
unchanged; in particular the id names no override entry and is not hidden in
the result. -/
theorem remove_eq_reset_c9 (elementId : String) (O : LabelOverride) :
    removeElementOverride elementId O = resetElementOverride elementId O ∧
    (removeElementOverride elementId O).elementOverrides =
      O.elementOverrides.filter (fun eo => decide (eo.elementId ≠ elementId)) ∧
    (removeElementOverride elementId O).hiddenElementIds =
      O.hiddenElementIds.filter (fun i => decide (i ≠ elementId)) ∧
    (removeElementOverride elementId O).additionalElements = O.additionalElements ∧
    (removeElementOverride elementId O).labelIndex = O.labelIndex ∧
    elementId ∉ ((removeElementOverride elementId O).elementOverrides.map
      ElementOverride.elementId) ∧
    elementId ∉ (removeElementOverride elementId O).hiddenElementIds := by
  refine ⟨rfl, rfl, rfl, rfl, rfl, ?_, ?_⟩
  · intro hmem
    rcases List.mem_map.mp hmem with ⟨eo, hmemf, heq⟩
    rcases List.mem_filter.mp hmemf with ⟨-, hne⟩
    simp only [decide_eq_true_eq] at hne
    exact hne heq
  · intro hmem
    rcases List.mem_filter.mp hmem with ⟨-, hne⟩
    simp only [decide_eq_true_eq] at hne
    exact hne rfl

/-! ## Stability of the final sort (Array.prototype.sort is stable) -/

/-- If all elements satisfying `p` are mutually tied under `zleb`, filtering
the stable sort by `p` gives the same list as filtering the input: the sort
preserves the relative order of tied elements. -/
theorem mergeSort_filter_stable (l : List DesignElement) (p : DesignElement → Bool)
    (hp : ∀ a b, p a = true → p b = true → zleb a b = true) :
    (l.mergeSort zleb).filter p = l.filter p := by
  have hpw : (l.filter p).Pairwise (fun a b => zleb a b = true) :=
    List.pairwise_of_forall_mem_list (fun a ha b hb =>
      hp a b (List.of_mem_filter ha) (List.of_mem_filter hb))
  have hsub : List.Sublist (l.filter p) (l.mergeSort zleb) :=
    List.sublist_mergeSort zleb_trans zleb_total hpw (List.filter_sublist l)
  have hself : (l.filter p).filter p = l.filter p := by
    rw [List.filter_filter]
    simp only [Bool.and_self]
  have hsub2 : List.Sublist (l.filter p) ((l.mergeSort zleb).filter p) := by
    have h := hsub.filter p
    rwa [hself] at h
  have hperm : List.Perm ((l.mergeSort zleb).filter p) (l.filter p) :=
    (List.mergeSort_perm l zleb).filter p
  exact (hsub2.eq_of_length hperm.length_eq.symm).symm

/-- C2: the resolved list is sorted by `zIndex` ascending, and for every
`zIndex` value the tied elements appear in exactly the order produced by the
master-order traversal followed by the appended `additionalElements`
(stable-sort tie-break; deterministic since `getEffectiveElements` is a
function of its inputs). -/
theorem resolve_sorted_stable_c2 (M : MasterLabel) (O : Option LabelOverride) :
    (getEffectiveElements M O).Pairwise (fun a b => a.zIndex ≤ b.zIndex) ∧
    ∀ z : Int, (getEffectiveElements M O).filter (fun e => decide (e.zIndex = z)) =
      (effectiveUnsorted M O).filter (fun e => decide (e.zIndex = z)) := by
  constructor
  · have h := List.sorted_mergeSort zleb_trans zleb_total (effectiveUnsorted M O)
    exact h.imp (fun hab => by simpa [zleb] using hab)
  · intro z
    apply mergeSort_filter_stable
    intro a b ha hb
    simp only [decide_eq_true_eq] at ha hb
    simp [zleb, ha, hb]

/-! ## C1: hide wins over patch -/

/-- Every element emitted by the master traversal of `getEffectiveElements`
carries the id of some non-hidden master element. -/
theorem mergeMaster_mem {o : LabelOverride} {l : List DesignElement} {e : DesignElement}
    (he : e ∈ mergeMaster o l) :
    ∃ m ∈ l, e.id = m.id ∧ m.id ∉ o.hiddenElementIds := by
  induction l with
  | nil => simp [mergeMaster] at he
  | cons m rest ih =>
    by_cases hmem : m.id ∈ o.hiddenElementIds
    · rw [mergeMaster, if_pos hmem] at he
      rcases ih he with ⟨m', hm', hid, hnot⟩
      exact ⟨m', List.mem_cons_of_mem m hm', hid, hnot⟩
    · rw [mergeMaster, if_neg hmem] at he
      rcases hfo : o.elementOverrides.find? (fun eo => decide (eo.elementId = m.id)) with
        _ | eo
      · rw [hfo] at he
        rcases List.mem_cons.mp he with heq | htail
        · exact ⟨m, List.mem_cons_self m rest, by rw [heq], hmem⟩
        · rcases ih htail with ⟨m', hm', hid, hnot⟩
          exact ⟨m', List.mem_cons_of_mem m hm', hid, hnot⟩
      · rw [hfo] at he
        rcases List.mem_cons.mp he with heq | htail
        · exact ⟨m, List.mem_cons_self m rest, by rw [heq]; rfl, hmem⟩
        · rcases ih htail with ⟨m', hm', hid, hnot⟩
          exact ⟨m', List.mem_cons_of_mem m hm', hid, hnot⟩

/-- C1: if an id is in `hiddenElementIds` and names a master element, then no
element of `getEffectiveElements M (some O)` carries that id — even when
`elementOverrides` also contains a patch entry for it (hide wins,
deterministically, with no error path).  The hypothesis on
`additionalElements` is the data-model invariant that slot-specific element
ids never collide with master element ids. -/
theorem hide_wins_c1 (M : MasterLabel) (O : LabelOverride) (eid : String)
    (hhid : eid ∈ O.hiddenElementIds)
    (hmaster : eid ∈ M.elements.map DesignElement.id)
    (hadd : ∀ a ∈ O.additionalElements, ∀ m ∈ M.elements, a.id ≠ m.id) :
    eid ∉ (getEffectiveElements M (some O)).map DesignElement.id := by
  intro hmem
  rcases List.mem_map.mp hmem with ⟨e, hemem, heid⟩
  rw [getEffectiveElements, List.mem_mergeSort] at hemem
  simp only [effectiveUnsorted] at hemem
  rcases List.mem_append.mp hemem with hm | ha
  · rcases mergeMaster_mem hm with ⟨m, hml, hid, hnothid⟩
    have hmeid : m.id = eid := by rw [← hid, heid]
    exact hnothid (hmeid ▸ hhid)
  · rcases List.mem_map.mp hmaster with ⟨m, hml, hmid⟩
    exact hadd e ha m hml (by rw [heid, hmid])

/-- Witness for C1 at a concrete contradictory override (id `a` both hidden
and patched, plus a slot-specific element `d`). -/
theorem hide_wins_c1_applied :
    ("a" ∈ overrideHideA.hiddenElementIds) ∧
    ("a" ∈ masterAB.elements.map DesignElement.id) ∧
    (∀ a ∈ overrideHideA.additionalElements, ∀ m ∈ masterAB.elements, a.id ≠ m.id) ∧
    "a" ∉ (getEffectiveElements masterAB (some overrideHideA)).map DesignElement.id :=
  ⟨by decide, by decide, by decide,
    hide_wins_c1 masterAB overrideHideA "a" (by decide) (by decide) (by decide)⟩

/-! ## Grid layout: C4, C10, C5 -/

/-- Range characterization of `getLabelPosition`: null exactly off the grid. -/
theorem getLabelPosition_none_iff (T : LabelTemplate) (i : Int) :
    getLabelPosition T i = none ↔ (i < 0 ∨ T.rows * T.columns ≤ i) := by
  unfold getLabelPosition
  by_cases h : i < 0 ∨ T.rows * T.columns ≤ i
  · rw [if_pos h]
    exact iff_of_true rfl h
  · rw [if_neg h]
    exact iff_of_false (by simp) h

/-- In-range value of `getLabelPosition`. -/
theorem getLabelPosition_in_range (T : LabelTemplate) (i : Int)
    (h : 0 ≤ i ∧ i < T.rows * T.columns) :
    getLabelPosition T i = some
      { x := T.offsetLeft + ((i % T.columns : Int) : ℚ) * (T.labelWidth + T.horizontalSpacing)
        y := T.offsetTop + ((i.fdiv T.columns : Int) : ℚ) * (T.labelHeight + T.verticalSpacing)
        row := i.fdiv T.columns
        col := i % T.columns } := by
  unfold getLabelPosition
  rw [if_neg (by omega)]

/-- Everything `getLabelPosition T i = some pos` implies about `i` and `pos`. -/
theorem getLabelPosition_some_elim {T : LabelTemplate} {i : Int} {pos : LabelPosition}
    (h : getLabelPosition T i = some pos) :
    0 ≤ i ∧ i < T.rows * T.columns ∧ pos.row = i.fdiv T.columns ∧
      pos.col = i % T.columns := by
  unfold getLabelPosition at h
  by_cases hc : i < 0 ∨ T.rows * T.columns ≤ i
  · rw [if_pos hc] at h
    cases h
  · rw [if_neg hc] at h
    have hpos := (Option.some.injEq _ _).mp h
    refine ⟨by omega, by omega, ?_, ?_⟩
    · rw [← hpos]
    · rw [← hpos]

/-- C4: `getLabelPosition` returns null exactly when the index is outside
`[0, rows*columns)` (never an exception), and otherwise returns
`row = floor(i / columns)`, `col = i % columns`,
`x = offsetLeft + col*(labelWidth + horizontalSpacing)`,
`y = offsetTop + row*(labelHeight + verticalSpacing)`, with exact rational
(millimeter) arithmetic and no rounding. -/
theorem getLabelPosition_spec_c4 (T : LabelTemplate) (i : Int) :
    (getLabelPosition T i = none ↔ (i < 0 ∨ T.rows * T.columns ≤ i)) ∧
    ((0 ≤ i ∧ i < T.rows * T.columns) →
      getLabelPosition T i = some
        { x := T.offsetLeft + ((i % T.columns : Int) : ℚ) * (T.labelWidth + T.horizontalSpacing)
          y := T.offsetTop + ((i.fdiv T.columns : Int) : ℚ) * (T.labelHeight + T.verticalSpacing)
          row := i.fdiv T.columns
          col := i % T.columns }) :=
  ⟨getLabelPosition_none_iff T i, getLabelPosition_in_range T i⟩

/-- Witness for C4 at the spec's test-6 grid: slot 1 of the 5-row, 2-column
template sits at `x = 4.7625 + 101.6 + 3.175 = 109.5375`, `y = 12.7`. -/
theorem getLabelPosition_spec_c4_applied :
    ((0:Int) ≤ 1 ∧ (1:Int) < templateGrid52.rows * templateGrid52.columns) ∧
    getLabelPosition templateGrid52 1 = some { x := 109.5375, y := 12.7, row := 0, col := 1 } := by
  refine ⟨by decide, ?_⟩
  have h := (getLabelPosition_spec_c4 templateGrid52 1).2 (by decide)
  rw [h]
  with_unfolding_all rfl

/-- C10: an out-of-range index makes `getLabelClipRect` return null (the
out-of-range probe is absorbed into the no-clip result, never an exception),
because it first consults `getLabelPosition` and propagates its null. -/
theorem clip_out_of_range_c10 (T : LabelTemplate) (i : Int)
    (h : i < 0 ∨ T.rows * T.columns ≤ i) :
    getLabelClipRect T i = none := by
  unfold getLabelClipRect
  rw [(getLabelPosition_none_iff T i).mpr h]

/-- Witness for C10 at index -1 of the 5-row, 2-column template. -/
theorem clip_out_of_range_c10_applied :
    ((-1 : Int) < 0 ∨ templateGrid52.rows * templateGrid52.columns ≤ -1) ∧
    getLabelClipRect templateGrid52 (-1) = none :=
  ⟨Or.inl (by decide), clip_out_of_range_c10 templateGrid52 (-1) (Or.inl (by decide))⟩

/-- Counterexample to C5 as stated: in the one-row, two-column template, slot
0 has no left neighbor, yet the clip rectangle's left edge is clamped to the
sheet origin `x = 0`, extending past the label's left boundary `x = 5` by
only 5 mm — far less than the 100 mm sheet dimensions.  The claimed
"extends past the label boundary by a large constant at least equal to the
sheet dimension" fails on the left (and top) edges. -/
theorem clip_counterexample_c5 :
    getLabelPosition templateRow2 0 = some { x := 5, y := 5, row := 0, col := 0 } ∧
    hasAdjacentLabel templateRow2 0 Side.left = false ∧
    getLabelClipRect templateRow2 0 = some { x := 0, y := 0, width := 15, height := 1100 } ∧
    ¬(templateRow2.sheetConfig.width ≤ (5 : ℚ) - 0) ∧
    ¬(templateRow2.sheetConfig.height ≤ (5 : ℚ) - 0) := by
  refine ⟨by with_unfolding_all rfl, by with_unfolding_all rfl, by with_unfolding_all rfl,
    by norm_num [templateRow2, sheetSquare100], by norm_num [templateRow2, sheetSquare100]⟩

/-- Values of `hasAdjacentLabel` on an in-range slot. -/
theorem hasAdjacentLabel_eq {T : LabelTemplate} {i : Int} {pos : LabelPosition}
    (h : getLabelPosition T i = some pos) :
    hasAdjacentLabel T i Side.left = decide (0 < pos.col) ∧
    hasAdjacentLabel T i Side.right = decide (pos.col < T.columns - 1) ∧
    hasAdjacentLabel T i Side.top = decide (0 < pos.row) ∧
    hasAdjacentLabel T i Side.bottom = decide (pos.row < T.rows - 1) := by
  unfold hasAdjacentLabel
  rw [h]
  exact ⟨rfl, rfl, rfl, rfl⟩

/-- A one-by-one grid has no neighbor on any side. -/
theorem hasAdjacentLabel_one_one {T : LabelTemplate} {i : Int} {pos : LabelPosition}
    (h : getLabelPosition T i = some pos) (hr : T.rows = 1) (hc : T.columns = 1) :
    ∀ s : Side, hasAdjacentLabel T i s = false := by
  obtain ⟨hi0, hilt, hrow, hcol⟩ := getLabelPosition_some_elim h
  have hieq : i = 0 := by rw [hr, hc] at hilt; omega
  have hcol0 : pos.col = 0 := by rw [hcol, hieq, hc]; decide
  have hrow0 : pos.row = 0 := by rw [hrow, hieq, hc]; decide
  obtain ⟨hL, hR, hT, hB⟩ := hasAdjacentLabel_eq h
  intro s
  cases s
  · rw [hL]; simp [hcol0]
  · rw [hR]; simp [hcol0, hc]
  · rw [hT]; simp [hrow0]
  · rw [hB]; simp [hrow0, hr]

/-- Explicit value of `getLabelClipRect` on an in-range slot. -/
theorem getLabelClipRect_eval {T : LabelTemplate} {i : Int} {pos : LabelPosition}
    (hpos : getLabelPosition T i = some pos) :
    getLabelClipRect T i =
      (if !hasAdjacentLabel T i Side.left && !hasAdjacentLabel T i Side.right &&
          !hasAdjacentLabel T i Side.top && !hasAdjacentLabel T i Side.bottom then none
       else some
        { x := if hasAdjacentLabel T i Side.left then pos.x else max 0 (pos.x - 1000)
          y := if hasAdjacentLabel T i Side.top then pos.y else max 0 (pos.y - 1000)
          width := (if hasAdjacentLabel T i Side.right then pos.x + T.labelWidth
                    else T.sheetConfig.width + 1000) -
                   (if hasAdjacentLabel T i Side.left then pos.x else max 0 (pos.x - 1000))
          height := (if hasAdjacentLabel T i Side.bottom then pos.y + T.labelHeight
                     else T.sheetConfig.height + 1000) -
                    (if hasAdjacentLabel T i Side.top then pos.y else max 0 (pos.y - 1000)) }) := by
  unfold getLabelClipRect
  rw [hpos]

/-- C5 amended: for an in-range slot, `getLabelClipRect` is null exactly when
no edge has a neighbor (hence a 1-by-1 grid always yields null); otherwise
each neighbored edge coincides exactly with the label boundary, each free
right/bottom edge extends to the sheet dimension plus 1000 mm, and each free
left/top edge extends only to `max 0 (boundary - 1000)` — clamped at the
sheet origin, NOT guaranteed to extend past the boundary by at least the
sheet dimension. -/
theorem clip_amended_c5 (T : LabelTemplate) (i : Int) (pos : LabelPosition)
    (hpos : getLabelPosition T i = some pos) :
    (getLabelClipRect T i = none ↔
      (hasAdjacentLabel T i Side.left = false ∧ hasAdjacentLabel T i Side.right = false ∧
       hasAdjacentLabel T i Side.top = false ∧ hasAdjacentLabel T i Side.bottom = false)) ∧
    (T.rows = 1 ∧ T.columns = 1 → getLabelClipRect T i = none) ∧
    (∀ r : ClipRect, getLabelClipRect T i = some r →
      r.x = (if hasAdjacentLabel T i Side.left = true then pos.x else max 0 (pos.x - 1000)) ∧
      r.y = (if hasAdjacentLabel T i Side.top = true then pos.y else max 0 (pos.y - 1000)) ∧
      r.x + r.width = (if hasAdjacentLabel T i Side.right = true then pos.x + T.labelWidth
        else T.sheetConfig.width + 1000) ∧
      r.y + r.height = (if hasAdjacentLabel T i Side.bottom = true then pos.y + T.labelHeight
        else T.sheetConfig.height + 1000)) := by
  have heval := getLabelClipRect_eval hpos
  refine ⟨?_, ?_, ?_⟩
  · rw [heval]
    by_cases hcond : (!hasAdjacentLabel T i Side.left && !hasAdjacentLabel T i Side.right &&
        !hasAdjacentLabel T i Side.top && !hasAdjacentLabel T i Side.bottom) = true
    · rw [if_pos hcond]
      simp only [Bool.and_eq_true, Bool.not_eq_true'] at hcond
      exact iff_of_true rfl ⟨hcond.1.1.1, hcond.1.1.2, hcond.1.2, hcond.2⟩
    · rw [if_neg hcond]
      refine iff_of_false (by simp) ?_
      rintro ⟨h1, h2, h3, h4⟩
      exact hcond (by simp [h1, h2, h3, h4])
  · rintro ⟨h1, h2⟩
    have hall := hasAdjacentLabel_one_one hpos h1 h2
    rw [heval]
    simp [hall Side.left, hall Side.right, hall Side.top, hall Side.bottom]
  · intro r hre
    rw [heval] at hre
    by_cases hcond : (!hasAdjacentLabel T i Side.left && !hasAdjacentLabel T i Side.right &&
        !hasAdjacentLabel T i Side.top && !hasAdjacentLabel T i Side.bottom) = true
    · rw [if_pos hcond] at hre
      exact absurd hre (by simp)
    · rw [if_neg hcond] at hre
      have hrec := (Option.some.injEq _ _).mp hre
      subst hrec
      exact ⟨rfl, rfl, by ring, by ring⟩

/-- Witness for C5 amended at slot 0 of the one-row, two-column template. -/
theorem clip_amended_c5_applied :
    (getLabelPosition templateRow2 0 = some { x := 5, y := 5, row := 0, col := 0 }) ∧
    (getLabelClipRect templateRow2 0 = none ↔
      (hasAdjacentLabel templateRow2 0 Side.left = false ∧
       hasAdjacentLabel templateRow2 0 Side.right = false ∧
       hasAdjacentLabel templateRow2 0 Side.top = false ∧
       hasAdjacentLabel templateRow2 0 Side.bottom = false)) :=
  ⟨by with_unfolding_all rfl,
    (clip_amended_c5 templateRow2 0 { x := 5, y := 5, row := 0, col := 0 }
      (by with_unfolding_all rfl)).1⟩

/-! ## C3: purity and aliasing of resolve -/

/-- The object-level master traversal computes the value-level traversal. -/
theorem mergeMasterRef_val (o : LabelOverrideRef) (l : List Obj) (n : Nat) :
    (mergeMasterRef o l n).1.map Obj.val = mergeMaster (stripOverride o) (l.map Obj.val) := by
  have hhid : (stripOverride o).hiddenElementIds = o.hiddenElementIds := rfl
  have hov : (stripOverride o).elementOverrides = o.elementOverrides := rfl
  induction l generalizing n with
  | nil => rfl
  | cons m rest ih =>
    simp only [mergeMasterRef, mergeMaster, List.map_cons, hhid, hov]
    by_cases hmem : m.val.id ∈ o.hiddenElementIds
    · rw [if_pos hmem, if_pos hmem]
      exact ih n
    · rw [if_neg hmem, if_neg hmem]
      rcases hfo : o.elementOverrides.find? (fun eo => decide (eo.elementId = m.val.id)) with
        _ | eo
      · rw [hfo]
        simp [ih (n + 1)]
      · rw [hfo]
        simp [ih (n + 1)]

/-- Refinement: forgetting addresses, the object-level resolve computes the
value-level `getEffectiveElements`, independently of the allocator state. -/
theorem getEffectiveElementsRef_val (M : MasterLabelRef) (O : Option LabelOverrideRef)
    (n : Nat) :
    (getEffectiveElementsRef M O n).1.map Obj.val =
      getEffectiveElements (stripMaster M) (O.map stripOverride) := by
  have hms : ∀ (l : List Obj),
      (l.mergeSort zlebObj).map Obj.val = (l.map Obj.val).mergeSort zleb :=
    fun l => List.map_mergeSort (fun a _ b _ => rfl)
  cases O with
  | none =>
    simp only [getEffectiveElementsRef, Option.map_none', getEffectiveElements,
      effectiveUnsorted, stripMaster]
    exact hms M.elements
  | some o =>
    simp only [getEffectiveElementsRef, Option.map_some', getEffectiveElements,
      effectiveUnsorted]
    rw [hms, List.map_append, mergeMasterRef_val]
    rfl

/-- Every object emitted by the object-level master traversal has an address
at or above the allocation floor. -/
theorem mergeMasterRef_addr {o : LabelOverrideRef} {l : List Obj} {n : Nat} {e : Obj}
    (he : e ∈ (mergeMasterRef o l n).1) : n ≤ e.addr := by
  induction l generalizing n with
  | nil => simp [mergeMasterRef] at he
  | cons m rest ih =>
    rw [mergeMasterRef] at he
    by_cases hmem : m.val.id ∈ o.hiddenElementIds
    · rw [if_pos hmem] at he
      exact ih he
    · rw [if_neg hmem] at he
      rcases hfo : o.elementOverrides.find? (fun eo => decide (eo.elementId = m.val.id)) with
        _ | eo <;> rw [hfo] at he <;> rcases List.mem_cons.mp he with heq | htail
      · rw [heq]
      · exact Nat.le_of_succ_le (ih htail)
      · rw [heq]
      · exact Nat.le_of_succ_le (ih htail)

/-- Counterexample to C3 as stated: with an absent override,
`getEffectiveElements` returns a new list whose single entry is the master's
own element object (address 0) — not a fresh copy. -/
theorem resolve_alias_counterexample_c3 :
    (getEffectiveElementsRef masterRefA none 100).1 = [⟨0, elemA⟩] ∧
    (⟨0, elemA⟩ : Obj) ∈ masterRefA.elements := by
  exact ⟨by with_unfolding_all rfl, by simp [masterRefA]⟩

/-- C3 amended: `getEffectiveElements` is a pure function of its inputs — the
returned element values are independent of the allocator state, so two calls
on the same `(M, O)` are structurally equal (and, the embedding being
functional, the inputs are not mutated); when an override is present every
returned object is either a freshly allocated copy or one of the override's
own `additionalElements` objects, so no returned object aliases a master
element object.  In the absent-override case, however, the returned (new)
list holds the master's own element objects, not copies. -/
theorem resolve_purity_amended_c3 :
    (∀ (M : MasterLabelRef) (O : Option LabelOverrideRef) (fresh1 fresh2 : Nat),
      (getEffectiveElementsRef M O fresh1).1.map Obj.val =
        (getEffectiveElementsRef M O fresh2).1.map Obj.val) ∧
    (∀ (M : MasterLabelRef) (o : LabelOverrideRef) (n : Nat),
      (∀ x ∈ M.elements, x.addr < n) →
      (∀ a ∈ o.additionalElements, ∀ x ∈ M.elements, a.addr ≠ x.addr) →
      ∀ e ∈ (getEffectiveElementsRef M (some o) n).1,
        e.addr ∉ M.elements.map Obj.addr) := by
  constructor
  · intro M O fresh1 fresh2
    rw [getEffectiveElementsRef_val, getEffectiveElementsRef_val]
  · intro M o n hmaster hdisj e he
    simp only [getEffectiveElementsRef, List.mem_mergeSort] at he
    intro hin
    rcases List.mem_map.mp hin with ⟨x, hx, hxe⟩
    rcases List.mem_append.mp he with hm | ha
    · have h1 := mergeMasterRef_addr hm
      have h2 := hmaster x hx
      omega
    · exact hdisj e ha x hx hxe.symm

/-- Witness for C3 amended at a concrete master/override pair, run with two
different allocator states. -/
theorem resolve_purity_amended_c3_applied :
    ((getEffectiveElementsRef masterRefA (some overrideRefD) 7).1.map Obj.val =
      (getEffectiveElementsRef masterRefA (some overrideRefD) 9).1.map Obj.val) ∧
    (∀ x ∈ masterRefA.elements, x.addr < 7) ∧
    (∀ a ∈ overrideRefD.additionalElements, ∀ x ∈ masterRefA.elements, a.addr ≠ x.addr) ∧
    (∀ e ∈ (getEffectiveElementsRef masterRefA (some overrideRefD) 7).1,
      e.addr ∉ masterRefA.elements.map Obj.addr) :=
  ⟨resolve_purity_amended_c3.1 masterRefA (some overrideRefD) 7 9, by decide, by decide,
    resolve_purity_amended_c3.2 masterRefA overrideRefD 7 (by decide) (by decide)⟩

/-! ## C7: resizing a 90-degree-rotated element -/

/-- Counterexample to C7 as stated: at rotation 90 degrees (cos 0, sin 1) a
pure horizontal screen drag of the east handle changes NOTHING — the
un-rotated delta is purely local-y, which the east handle ignores — so in
particular the height does not change, contradicting the claim that only the
height changes.  Input: 96 px horizontal drag at zoom 1, 96 dpi. -/
theorem resize_counterexample_c7 :
    applyResizeDrag startRot90 0 1 Handle.e 96 0 1 96 false = startRot90 ∧
    (applyResizeDrag startRot90 0 1 Handle.e 96 0 1 96 false).height = startRot90.height := by
  refine ⟨?_, ?_⟩ <;> with_unfolding_all rfl

/-- C7 amended: at rotation 90 degrees (cosine 0, sine 1) the screen delta is
rotated into the element's local axes before being applied, so a pure
horizontal screen drag of the east handle leaves the whole transform
unchanged (width and height both stay); only the vertical screen component
reaches the east handle, changing exactly the width (the local x-axis lies
on the screen's vertical axis).  Sizes at least 5 mm so that the 5 mm clamp
is inert. -/
theorem resize_amended_c7 (st : Transform) (dx dy zoom dpi : ℚ)
    (hw : 5 ≤ st.width) (hh : 5 ≤ st.height) :
    applyResizeDrag st 0 1 Handle.e dx 0 zoom dpi false = st ∧
    applyResizeDrag st 0 1 Handle.e 0 dy zoom dpi false =
      { st with width := max 5 (st.width + dy / zoom * 25.4 / dpi) } := by
  obtain ⟨sx, sy, sw, sh, sr⟩ := st
  simp only at hw hh
  constructor
  · unfold applyResizeDrag
    simp [Transform.mk.injEq, max_eq_right, hw, hh]
  · unfold applyResizeDrag
    simp [Transform.mk.injEq, max_eq_right, hh]

/-- Witness for C7 amended at the concrete 90-degree transform. -/
theorem resize_amended_c7_applied :
    ((5:ℚ) ≤ startRot90.width) ∧ ((5:ℚ) ≤ startRot90.height) ∧
    applyResizeDrag startRot90 0 1 Handle.e 96 0 1 96 false = startRot90 ∧
    applyResizeDrag startRot90 0 1 Handle.e 0 96 1 96 false =
      { startRot90 with width := max 5 (startRot90.width + 96 / 1 * 25.4 / 96) } :=
  ⟨by norm_num [startRot90], by norm_num [startRot90],
    (resize_amended_c7 startRot90 96 96 1 96 (by norm_num [startRot90])
      (by norm_num [startRot90])).1,
    (resize_amended_c7 startRot90 96 96 1 96 (by norm_num [startRot90])
      (by norm_num [startRot90])).2⟩

/-! ## C6: z-order bringForward / sendBackward -/

theorem zgeb_trans : ∀ a b c : DesignElement, zgeb a b → zgeb b c → zgeb a c := by
  intro a b c hab hbc
  simp only [zgeb, decide_eq_true_eq] at *
  omega

theorem zgeb_total : ∀ a b : DesignElement, zgeb a b || zgeb b a := by
  intro a b
  simp only [zgeb]
  by_cases h : b.zIndex ≤ a.zIndex
  · simp [h]
  · simp [h]; omega

/-- In a zIndex-sorted list with pairwise-distinct zIndexes and ids, the
index of an element's id equals the number of elements with a strictly
smaller zIndex. -/
theorem indexOf_sorted_eq_countP (s : List DesignElement)
    (hs : s.Pairwise (fun a b => zleb a b = true))
    (hz : (s.map DesignElement.zIndex).Nodup)
    (hid : (s.map DesignElement.id).Nodup)
    {e : DesignElement} (he : e ∈ s) :
    (s.map DesignElement.id).indexOf e.id =
      s.countP (fun x => decide (x.zIndex < e.zIndex)) := by
  induction s with
  | nil => cases he
  | cons a t ih =>
    rw [List.pairwise_cons] at hs
    rw [List.map_cons, List.nodup_cons] at hz hid
    have hlt : ∀ x ∈ t, a.zIndex < x.zIndex := by
      intro x hx
      have h1 : zleb a x = true := hs.1 x hx
      simp only [zleb, decide_eq_true_eq] at h1
      have h2 : a.zIndex ≠ x.zIndex := by
        intro heq
        exact hz.1 (heq ▸ List.mem_map_of_mem DesignElement.zIndex hx)
      omega
    rcases List.mem_cons.mp he with heq | het
    · subst heq
      rw [List.map_cons, List.indexOf_cons_self, List.countP_cons]
      have h0 : t.countP (fun x => decide (x.zIndex < e.zIndex)) = 0 := by
        rw [List.countP_eq_zero]
        intro x hx
        simp only [decide_eq_true_eq, not_lt]
        exact le_of_lt (hlt x hx)
      simp [h0]
    · have hne : a.id ≠ e.id := by
        intro heq
        exact hid.1 (heq ▸ List.mem_map_of_mem DesignElement.id het)
      rw [List.map_cons, List.indexOf_cons_ne _ hne, List.countP_cons]
      have hpa : (decide (a.zIndex < e.zIndex)) = true := by
        simp only [decide_eq_true_eq]
        exact hlt e het
      rw [ih hs.2 hz.2 hid.2 het]
      simp [hpa, Nat.succ_eq_add_one]

/-- The visual rank of an element equals the number of elements with strictly
smaller zIndex, when zIndexes and ids are pairwise distinct. -/
theorem rankOf_eq_countP (l : List DesignElement)
    (hz : (l.map DesignElement.zIndex).Nodup) (hid : (l.map DesignElement.id).Nodup)
    {e : DesignElement} (he : e ∈ l) :
    rankOf l e.id = l.countP (fun x => decide (x.zIndex < e.zIndex)) := by
  have hperm : List.Perm (l.mergeSort zleb) l := List.mergeSort_perm l zleb
  have hsorted : (l.mergeSort zleb).Pairwise (fun a b => zleb a b = true) :=
    List.sorted_mergeSort zleb_trans zleb_total l
  have hz2 : ((l.mergeSort zleb).map DesignElement.zIndex).Nodup :=
    ((hperm.map DesignElement.zIndex).nodup_iff).mpr hz
  have hid2 : ((l.mergeSort zleb).map DesignElement.id).Nodup :=
    ((hperm.map DesignElement.id).nodup_iff).mpr hid
  have he2 : e ∈ l.mergeSort zleb := List.mem_mergeSort.mpr he
  rw [rankOf, renderOrder, indexOf_sorted_eq_countP _ hsorted hz2 hid2 he2]
  exact hperm.countP_eq _

/-- Counting elements below a smaller threshold gives a strictly smaller
count, witnessed by the element at the threshold. -/
theorem countP_lt_strict (l : List DesignElement) {a b : DesignElement}
    (ha : a ∈ l) (hab : a.zIndex < b.zIndex) :
    l.countP (fun x => decide (x.zIndex < a.zIndex)) <
      l.countP (fun x => decide (x.zIndex < b.zIndex)) := by
  have hperm := List.perm_cons_erase ha
  rw [hperm.countP_eq (fun x => decide (x.zIndex < a.zIndex)),
    hperm.countP_eq (fun x => decide (x.zIndex < b.zIndex)),
    List.countP_cons, List.countP_cons]
  have h3 : (l.erase a).countP (fun x => decide (x.zIndex < a.zIndex)) ≤
      (l.erase a).countP (fun x => decide (x.zIndex < b.zIndex)) := by
    apply List.countP_mono_left
    intro x hx hpx
    simp only [decide_eq_true_eq] at *
    omega
  have h1 : (decide (a.zIndex < a.zIndex)) = false := by simp
  have h2 : (decide (a.zIndex < b.zIndex)) = true := by simp [hab]
  rw [h1, h2]
  simp
  omega

/-- Visual precedence is zIndex comparison, for distinct zIndexes and ids. -/
theorem rankOf_lt_iff (l : List DesignElement)
    (hz : (l.map DesignElement.zIndex).Nodup) (hid : (l.map DesignElement.id).Nodup)
    {a b : DesignElement} (ha : a ∈ l) (hb : b ∈ l) :
    rankOf l a.id < rankOf l b.id ↔ a.zIndex < b.zIndex := by
  rw [rankOf_eq_countP l hz hid ha, rankOf_eq_countP l hz hid hb]
  constructor
  · intro h
    rcases lt_trichotomy a.zIndex b.zIndex with hlt | heq | hgt
    · exact hlt
    · rw [heq] at h
      exact absurd h (lt_irrefl _)
    · have := countP_lt_strict l hb hgt
      omega
  · intro h
    exact countP_lt_strict l ha h

/-- Characterization of `bringForward`'s swap partner: it is an element with
zIndex strictly above the threshold, minimal among those. -/
theorem next_facts (l : List DesignElement) (z : Int) (next : DesignElement)
    (hnext : ((l.filter (fun el => decide (z < el.zIndex))).mergeSort zleb).head? =
      some next) :
    next ∈ l ∧ z < next.zIndex ∧ ∀ x ∈ l, z < x.zIndex → next.zIndex ≤ x.zIndex := by
  rcases hsl : (l.filter (fun el => decide (z < el.zIndex))).mergeSort zleb with _ | ⟨h, t⟩
  · rw [hsl] at hnext
    cases hnext
  · rw [hsl, List.head?_cons] at hnext
    have hh : h = next := by injection hnext
    subst hh
    have hmem_sl : h ∈ (l.filter (fun el => decide (z < el.zIndex))).mergeSort zleb := by
      rw [hsl]
      exact List.mem_cons_self h t
    have hmem_f : h ∈ l.filter (fun el => decide (z < el.zIndex)) :=
      List.mem_mergeSort.mp hmem_sl
    refine ⟨List.mem_of_mem_filter hmem_f, by simpa using List.of_mem_filter hmem_f, ?_⟩
    intro x hx hz
    have hxf : x ∈ l.filter (fun el => decide (z < el.zIndex)) :=
      List.mem_filter.mpr ⟨hx, by simpa⟩
    have hx_sl : x ∈ (l.filter (fun el => decide (z < el.zIndex))).mergeSort zleb :=
      List.mem_mergeSort.mpr hxf
    rw [hsl] at hx_sl
    rcases List.mem_cons.mp hx_sl with heq | hxt
    · rw [heq]
    · have hpw : ((l.filter (fun el => decide (z < el.zIndex))).mergeSort zleb).Pairwise
          (fun a b => zleb a b = true) :=
        List.sorted_mergeSort zleb_trans zleb_total _
      rw [hsl, List.pairwise_cons] at hpw
      have := hpw.1 x hxt
      simpa [zleb] using this

/-- Characterization of `sendBackward`'s swap partner: an element with zIndex
strictly below the threshold, maximal among those. -/
theorem prev_facts (l : List DesignElement) (z : Int) (prev : DesignElement)
    (hprev : ((l.filter (fun el => decide (el.zIndex < z))).mergeSort zgeb).head? =
      some prev) :
    prev ∈ l ∧ prev.zIndex < z ∧ ∀ x ∈ l, x.zIndex < z → x.zIndex ≤ prev.zIndex := by
  rcases hsl : (l.filter (fun el => decide (el.zIndex < z))).mergeSort zgeb with _ | ⟨h, t⟩
  · rw [hsl] at hprev
    cases hprev
  · rw [hsl, List.head?_cons] at hprev
    have hh : h = prev := by injection hprev
    subst hh
    have hmem_sl : h ∈ (l.filter (fun el => decide (el.zIndex < z))).mergeSort zgeb := by
      rw [hsl]
      exact List.mem_cons_self h t
    have hmem_f : h ∈ l.filter (fun el => decide (el.zIndex < z)) :=
      List.mem_mergeSort.mp hmem_sl
    refine ⟨List.mem_of_mem_filter hmem_f, by simpa using List.of_mem_filter hmem_f, ?_⟩
    intro x hx hz
    have hxf : x ∈ l.filter (fun el => decide (el.zIndex < z)) :=
      List.mem_filter.mpr ⟨hx, by simpa⟩
    have hx_sl : x ∈ (l.filter (fun el => decide (el.zIndex < z))).mergeSort zgeb :=
      List.mem_mergeSort.mpr hxf
    rw [hsl] at hx_sl
    rcases List.mem_cons.mp hx_sl with heq | hxt
    · rw [heq]
    · have hpw : ((l.filter (fun el => decide (el.zIndex < z))).mergeSort zgeb).Pairwise
          (fun a b => zgeb a b = true) :=
        List.sorted_mergeSort zgeb_trans zgeb_total _
      rw [hsl, List.pairwise_cons] at hpw
      have := hpw.1 x hxt
      simpa [zgeb] using this

/-- Unfolding of `bringForward` once target and partner are known. -/
theorem bringForward_eq_map (l : List DesignElement) (tid : String)
    (cur next : DesignElement)
    (hfind : l.find? (fun el => decide (el.id = tid)) = some cur)
    (hnext : ((l.filter (fun el => decide (cur.zIndex < el.zIndex))).mergeSort zleb).head? =
      some next) :
    bringForward tid l = l.map (fun el =>
      if el.id = tid then { el with zIndex := next.zIndex }
      else if el.id = next.id then { el with zIndex := cur.zIndex }
      else el) := by
  rw [bringForward, hfind]
  dsimp only
  rw [hnext]

/-- Unfolding of `sendBackward` once target and partner are known. -/
theorem sendBackward_eq_map (l : List DesignElement) (tid : String)
    (cur prev : DesignElement)
    (hfind : l.find? (fun el => decide (el.id = tid)) = some cur)
    (hprev : ((l.filter (fun el => decide (el.zIndex < cur.zIndex))).mergeSort zgeb).head? =
      some prev) :
    sendBackward tid l = l.map (fun el =>
      if el.id = tid then { el with zIndex := prev.zIndex }
      else if el.id = prev.id then { el with zIndex := cur.zIndex }
      else el) := by
  rw [sendBackward, hfind]
  dsimp only
  rw [hprev]

/-- Both z-order operations keep the id sequence of the list unchanged. -/
theorem zorder_map_id (tid : String) (l : List DesignElement) :
    (bringForward tid l).map DesignElement.id = l.map DesignElement.id ∧
    (sendBackward tid l).map DesignElement.id = l.map DesignElement.id := by
  constructor
  · rw [bringForward]
    rcases hf : l.find? (fun el => decide (el.id = tid)) with _ | cur
    · rw [hf]
    · rw [hf]
      dsimp only
      rcases hh : ((l.filter (fun el => decide (cur.zIndex < el.zIndex))).mergeSort
          zleb).head? with _ | nx
      · rw [hh]
      · rw [hh]
        dsimp only
        rw [List.map_map]
        apply List.map_congr_left
        intro x hx
        by_cases h1 : x.id = tid
        · simp [h1]
        · by_cases h2 : x.id = nx.id
          · simp only [Function.comp_apply, h1, h2, if_false]
            split <;> rfl
          · simp [h1, h2]
  · rw [sendBackward]
    rcases hf : l.find? (fun el => decide (el.id = tid)) with _ | cur
    · rw [hf]
    · rw [hf]
      dsimp only
      rcases hh : ((l.filter (fun el => decide (el.zIndex < cur.zIndex))).mergeSort
          zgeb).head? with _ | pv
      · rw [hh]
      · rw [hh]
        dsimp only
        rw [List.map_map]
        apply List.map_congr_left
        intro x hx
        by_cases h1 : x.id = tid
        · simp [h1]
        · by_cases h2 : x.id = pv.id
          · simp only [Function.comp_apply, h1, h2, if_false]
            split <;> rfl
          · simp [h1, h2]

/-- Full behavior of `bringForward` when the target exists and has a
strictly-higher partner: the partner is the minimal strictly-higher element,
exactly the two zIndex values are swapped (all other elements are untouched),
and — when zIndexes are pairwise distinct — the target moves up exactly one
visual position while all other elements keep their relative visual order. -/
theorem bringForward_spec (l : List DesignElement) (tid : String) (cur next : DesignElement)
    (hid : (l.map DesignElement.id).Nodup)
    (hz : (l.map DesignElement.zIndex).Nodup)
    (hfind : l.find? (fun el => decide (el.id = tid)) = some cur)
    (hnext : ((l.filter (fun el => decide (cur.zIndex < el.zIndex))).mergeSort zleb).head? =
      some next) :
    (∀ e ∈ l, e.id ≠ tid → e.id ≠ next.id → e ∈ bringForward tid l) ∧
    (∀ e ∈ bringForward tid l, e.id = tid → e.zIndex = next.zIndex) ∧
    (∀ e ∈ bringForward tid l, e.id ≠ tid → e.id = next.id → e.zIndex = cur.zIndex) ∧
    (next ∈ l ∧ cur.zIndex < next.zIndex ∧
      ∀ x ∈ l, cur.zIndex < x.zIndex → next.zIndex ≤ x.zIndex) ∧
    rankOf (bringForward tid l) tid = rankOf l tid + 1 ∧
    (∀ a b, a ∈ l → b ∈ l → a.id ≠ tid → b.id ≠ tid →
      (rankOf (bringForward tid l) a.id < rankOf (bringForward tid l) b.id ↔
        rankOf l a.id < rankOf l b.id)) := by
  obtain ⟨hnl, hznext, hmin⟩ := next_facts l cur.zIndex next hnext
  have hcl : cur ∈ l := List.mem_of_find?_eq_some hfind
  have hcid : cur.id = tid := by simpa using List.find?_some hfind
  have hcur_ne : cur ≠ next := by
    intro h
    rw [← h] at hznext
    exact absurd hznext (lt_irrefl _)
  have hinj_id := List.inj_on_of_nodup_map hid
  have hinj_z := List.inj_on_of_nodup_map hz
  have hcnid : cur.id ≠ next.id := fun h => hcur_ne (hinj_id hcl hnl h)
  have hnid : ¬(next.id = tid) := fun h => hcnid (hcid.trans h.symm)
  have hmap := bringForward_eq_map l tid cur next hfind hnext
  set f := fun el : DesignElement =>
      if el.id = tid then { el with zIndex := next.zIndex }
      else if el.id = next.id then { el with zIndex := cur.zIndex }
      else el with hf
  have hfid : ∀ x : DesignElement, (f x).id = x.id := by
    intro x
    rw [hf]
    by_cases h1 : x.id = tid
    · simp [h1]
    · by_cases h2 : x.id = next.id
      · simp [h1, h2, hnid]
      · simp [h1, h2]
  have hids : (bringForward tid l).map DesignElement.id = l.map DesignElement.id := by
    rw [hmap, List.map_map]
    apply List.map_congr_left
    intro x _
    exact hfid x
  have hldup : l.Nodup := List.Nodup.of_map _ hid
  have hperm1 : List.Perm l (cur :: l.erase cur) := List.perm_cons_erase hcl
  have hnerase : next ∈ l.erase cur :=
    (List.Nodup.mem_erase_iff hldup).mpr ⟨fun h => hcur_ne h.symm, hnl⟩
  have hperm2 : List.Perm (l.erase cur) (next :: (l.erase cur).erase next) :=
    List.perm_cons_erase hnerase
  set rest := (l.erase cur).erase next with hrest
  have hperm : List.Perm l (cur :: next :: rest) := hperm1.trans (hperm2.cons cur)
  have hrest_mem : ∀ x ∈ rest, x ∈ l ∧ x ≠ cur ∧ x ≠ next := by
    intro x hx
    rw [hrest] at hx
    have h2 := (List.Nodup.mem_erase_iff (hldup.erase cur)).mp hx
    have h3 := (List.Nodup.mem_erase_iff hldup).mp h2.2
    exact ⟨h3.2, h3.1, h2.1⟩
  have hrest_id : ∀ x ∈ rest, x.id ≠ tid ∧ x.id ≠ next.id := by
    intro x hx
    obtain ⟨hxl, hxc, hxn⟩ := hrest_mem x hx
    constructor
    · intro h
      exact hxc (hinj_id hxl hcl (h.trans hcid.symm))
    · intro h
      exact hxn (hinj_id hxl hnl h)
  have hrest_z : ∀ x ∈ rest, x.zIndex ≠ cur.zIndex ∧ x.zIndex ≠ next.zIndex := by
    intro x hx
    obtain ⟨hxl, hxc, hxn⟩ := hrest_mem x hx
    exact ⟨fun h => hxc (hinj_z hxl hcl h), fun h => hxn (hinj_z hxl hnl h)⟩
  have hfcur : f cur = { cur with zIndex := next.zIndex } := by
    rw [hf]
    simp [hcid]
  have hfnext : f next = { next with zIndex := cur.zIndex } := by
    rw [hf]
    simp [hnid]
  have hrest_f : rest.map f = rest := by
    have h1 : rest.map f = rest.map (fun x => x) := by
      apply List.map_congr_left
      intro x hx
      obtain ⟨h1, h2⟩ := hrest_id x hx
      rw [hf]
      simp [h1, h2]
    rw [h1, List.map_id']
  have hpermmap : List.Perm (bringForward tid l) (f cur :: f next :: rest) := by
    rw [hmap]
    have h := hperm.map f
    rw [List.map_cons, List.map_cons, hrest_f] at h
    exact h
  have hid' : ((bringForward tid l).map DesignElement.id).Nodup := hids ▸ hid
  have hzperm : List.Perm ((bringForward tid l).map DesignElement.zIndex)
      (l.map DesignElement.zIndex) := by
    have h1 := hpermmap.map DesignElement.zIndex
    rw [List.map_cons, List.map_cons, hfcur, hfnext] at h1
    have h2 := hperm.map DesignElement.zIndex
    rw [List.map_cons, List.map_cons] at h2
    exact (h1.trans (List.Perm.swap cur.zIndex next.zIndex _)).trans h2.symm
  have hz' : ((bringForward tid l).map DesignElement.zIndex).Nodup :=
    hzperm.nodup_iff.mpr hz
  have hfcmem : f cur ∈ bringForward tid l := by
    rw [hmap]
    exact List.mem_map_of_mem f hcl
  have hrest_count : rest.countP (fun x => decide (x.zIndex < next.zIndex)) =
      rest.countP (fun x => decide (x.zIndex < cur.zIndex)) := by
    apply List.countP_congr
    intro x hx
    obtain ⟨hxl, -, -⟩ := hrest_mem x hx
    obtain ⟨hzc, hzn⟩ := hrest_z x hx
    simp only [decide_eq_true_eq]
    constructor
    · intro h
      by_contra hc
      push_neg at hc
      have h1 : cur.zIndex < x.zIndex := lt_of_le_of_ne hc (Ne.symm hzc)
      have h2 := hmin x hxl h1
      omega
    · intro h
      omega
  have hrank_l : rankOf l tid = rest.countP (fun x => decide (x.zIndex < cur.zIndex)) := by
    have h1 : rankOf l cur.id = l.countP (fun x => decide (x.zIndex < cur.zIndex)) :=
      rankOf_eq_countP l hz hid hcl
    rw [hcid] at h1
    rw [h1, hperm.countP_eq, List.countP_cons, List.countP_cons]
    have hc1 : (decide (cur.zIndex < cur.zIndex)) = false := by simp
    have hc2 : (decide (next.zIndex < cur.zIndex)) = false := by simp; omega
    rw [hc1, hc2]
    simp
  have hrank_l' : rankOf (bringForward tid l) tid =
      rest.countP (fun x => decide (x.zIndex < cur.zIndex)) + 1 := by
    have h1 : rankOf (bringForward tid l) (f cur).id =
        (bringForward tid l).countP (fun x => decide (x.zIndex < (f cur).zIndex)) :=
      rankOf_eq_countP (bringForward tid l) hz' hid' hfcmem
    rw [hfid cur, hcid] at h1
    have h2 : (f cur).zIndex = next.zIndex := by rw [hfcur]
    rw [h2] at h1
    rw [h1, hpermmap.countP_eq, List.countP_cons, List.countP_cons]
    have hc1 : (decide ((f cur).zIndex < next.zIndex)) = false := by
      rw [hfcur]
      simp
    have hc2 : (decide ((f next).zIndex < next.zIndex)) = true := by
      rw [hfnext]
      simpa using hznext
    rw [hc1, hc2, hrest_count]
    simp
  refine ⟨?_, ?_, ?_, ⟨hnl, hznext, hmin⟩, ?_, ?_⟩
  · intro e hel h1 h2
    have hfe : f e = e := by
      rw [hf]
      simp [h1, h2]
    rw [hmap]
    exact hfe ▸ List.mem_map_of_mem f hel
  · intro e he hetid
    rw [hmap] at he
    rcases List.mem_map.mp he with ⟨x, hx, hfx⟩
    by_cases h1 : x.id = tid
    · rw [← hfx, hf]
      simp [h1]
    · exfalso
      apply h1
      rw [← hfid x, hfx, hetid]
  · intro e he h1 h2
    rw [hmap] at he
    rcases List.mem_map.mp he with ⟨x, hx, hfx⟩
    have hxid : x.id = e.id := by rw [← hfx, hfid]
    have hx1 : ¬(x.id = tid) := by rw [hxid]; exact h1
    have hx2 : x.id = next.id := by rw [hxid]; exact h2
    rw [← hfx, hf]
    simp [hx1, hx2, hnid]
  · rw [hrank_l', hrank_l]
  · intro a b hal hbl ha hb
    have hfa_mem : f a ∈ bringForward tid l := by
      rw [hmap]
      exact List.mem_map_of_mem f hal
    have hfb_mem : f b ∈ bringForward tid l := by
      rw [hmap]
      exact List.mem_map_of_mem f hbl
    have hiff1 : rankOf (bringForward tid l) a.id < rankOf (bringForward tid l) b.id ↔
        (f a).zIndex < (f b).zIndex := by
      have h := rankOf_lt_iff (bringForward tid l) hz' hid' hfa_mem hfb_mem
      rwa [hfid a, hfid b] at h
    have hiff2 : rankOf l a.id < rankOf l b.id ↔ a.zIndex < b.zIndex :=
      rankOf_lt_iff l hz hid hal hbl
    rw [hiff1, hiff2]
    have hfa : f a = if a.id = next.id then { a with zIndex := cur.zIndex } else a := by
      rw [hf]
      simp [ha]
    have hfb : f b = if b.id = next.id then { b with zIndex := cur.zIndex } else b := by
      rw [hf]
      simp [hb]
    by_cases han : a.id = next.id <;> by_cases hbn : b.id = next.id
    · have ha2 : a = next := hinj_id hal hnl han
      have hb2 : b = next := hinj_id hbl hnl hbn
      rw [ha2, hb2]
      simp
    · have ha2 : a = next := hinj_id hal hnl han
      rw [hfa, hfb, if_pos han, if_neg hbn, ha2]
      have hbne_n : b.zIndex ≠ next.zIndex := fun h => hbn (congrArg DesignElement.id
        (hinj_z hbl hnl h))
      show cur.zIndex < b.zIndex ↔ next.zIndex < b.zIndex
      constructor
      · intro h2
        have h3 := hmin b hbl h2
        exact lt_of_le_of_ne h3 (Ne.symm hbne_n)
      · intro h2
        omega
    · have hb2 : b = next := hinj_id hbl hnl hbn
      rw [hfa, hfb, if_neg han, if_pos hbn, hb2]
      have hane_c : a.zIndex ≠ cur.zIndex := fun h =>
        ha (by rw [hinj_z hal hcl h]; exact hcid)
      show a.zIndex < cur.zIndex ↔ a.zIndex < next.zIndex
      constructor
      · intro h2
        omega
      · intro h2
        by_contra hc
        push_neg at hc
        have h3 : cur.zIndex < a.zIndex := lt_of_le_of_ne hc (Ne.symm hane_c)
        have h4 := hmin a hal h3
        omega
    · rw [hfa, hfb, if_neg han, if_neg hbn]

/-- Full behavior of `sendBackward`, dual to `bringForward_spec`: the partner
is the maximal strictly-lower element, exactly the two zIndex values are
swapped, and — for pairwise-distinct zIndexes — the target moves down exactly
one visual position while all other elements keep their relative order. -/
theorem sendBackward_spec (l : List DesignElement) (tid : String) (cur prev : DesignElement)
    (hid : (l.map DesignElement.id).Nodup)
    (hz : (l.map DesignElement.zIndex).Nodup)
    (hfind : l.find? (fun el => decide (el.id = tid)) = some cur)
    (hprev : ((l.filter (fun el => decide (el.zIndex < cur.zIndex))).mergeSort zgeb).head? =
      some prev) :
    (∀ e ∈ l, e.id ≠ tid → e.id ≠ prev.id → e ∈ sendBackward tid l) ∧
    (∀ e ∈ sendBackward tid l, e.id = tid → e.zIndex = prev.zIndex) ∧
    (∀ e ∈ sendBackward tid l, e.id ≠ tid → e.id = prev.id → e.zIndex = cur.zIndex) ∧
    (prev ∈ l ∧ prev.zIndex < cur.zIndex ∧
      ∀ x ∈ l, x.zIndex < cur.zIndex → x.zIndex ≤ prev.zIndex) ∧
    rankOf (sendBackward tid l) tid + 1 = rankOf l tid ∧
    (∀ a b, a ∈ l → b ∈ l → a.id ≠ tid → b.id ≠ tid →
      (rankOf (sendBackward tid l) a.id < rankOf (sendBackward tid l) b.id ↔
        rankOf l a.id < rankOf l b.id)) := by
  obtain ⟨hpl, hzprev, hmax⟩ := prev_facts l cur.zIndex prev hprev
  have hcl : cur ∈ l := List.mem_of_find?_eq_some hfind
  have hcid : cur.id = tid := by simpa using List.find?_some hfind
  have hcur_ne : cur ≠ prev := by
    intro h
    rw [← h] at hzprev
    exact absurd hzprev (lt_irrefl _)
  have hinj_id := List.inj_on_of_nodup_map hid
  have hinj_z := List.inj_on_of_nodup_map hz
  have hcnid : cur.id ≠ prev.id := fun h => hcur_ne (hinj_id hcl hpl h)
  have hnid : ¬(prev.id = tid) := fun h => hcnid (hcid.trans h.symm)
  have hmap := sendBackward_eq_map l tid cur prev hfind hprev
  set f := fun el : DesignElement =>
      if el.id = tid then { el with zIndex := prev.zIndex }
      else if el.id = prev.id then { el with zIndex := cur.zIndex }
      else el with hf
  have hfid : ∀ x : DesignElement, (f x).id = x.id := by
    intro x
    rw [hf]
    by_cases h1 : x.id = tid
    · simp [h1]
    · by_cases h2 : x.id = prev.id
      · simp [h1, h2, hnid]
      · simp [h1, h2]
  have hids : (sendBackward tid l).map DesignElement.id = l.map DesignElement.id := by
    rw [hmap, List.map_map]
    apply List.map_congr_left
    intro x _
    exact hfid x
  have hldup : l.Nodup := List.Nodup.of_map _ hid
  have hperm1 : List.Perm l (cur :: l.erase cur) := List.perm_cons_erase hcl
  have hnerase : prev ∈ l.erase cur :=
    (List.Nodup.mem_erase_iff hldup).mpr ⟨fun h => hcur_ne h.symm, hpl⟩
  have hperm2 : List.Perm (l.erase cur) (prev :: (l.erase cur).erase prev) :=
    List.perm_cons_erase hnerase
  set rest := (l.erase cur).erase prev with hrest
  have hperm : List.Perm l (cur :: prev :: rest) := hperm1.trans (hperm2.cons cur)
  have hrest_mem : ∀ x ∈ rest, x ∈ l ∧ x ≠ cur ∧ x ≠ prev := by
    intro x hx
    rw [hrest] at hx
    have h2 := (List.Nodup.mem_erase_iff (hldup.erase cur)).mp hx
    have h3 := (List.Nodup.mem_erase_iff hldup).mp h2.2
    exact ⟨h3.2, h3.1, h2.1⟩
  have hrest_id : ∀ x ∈ rest, x.id ≠ tid ∧ x.id ≠ prev.id := by
    intro x hx
    obtain ⟨hxl, hxc, hxn⟩ := hrest_mem x hx
    constructor
    · intro h
      exact hxc (hinj_id hxl hcl (h.trans hcid.symm))
    · intro h
      exact hxn (hinj_id hxl hpl h)
  have hrest_z : ∀ x ∈ rest, x.zIndex ≠ cur.zIndex ∧ x.zIndex ≠ prev.zIndex := by
    intro x hx
    obtain ⟨hxl, hxc, hxn⟩ := hrest_mem x hx
    exact ⟨fun h => hxc (hinj_z hxl hcl h), fun h => hxn (hinj_z hxl hpl h)⟩
  have hfcur : f cur = { cur with zIndex := prev.zIndex } := by
    rw [hf]
    simp [hcid]
  have hfprev : f prev = { prev with zIndex := cur.zIndex } := by
    rw [hf]
    simp [hnid]
  have hrest_f : rest.map f = rest := by
    have h1 : rest.map f = rest.map (fun x => x) := by
      apply List.map_congr_left
      intro x hx
      obtain ⟨h1, h2⟩ := hrest_id x hx
      rw [hf]
      simp [h1, h2]
    rw [h1, List.map_id']
  have hpermmap : List.Perm (sendBackward tid l) (f cur :: f prev :: rest) := by
    rw [hmap]
    have h := hperm.map f
    rw [List.map_cons, List.map_cons, hrest_f] at h
    exact h
  have hid' : ((sendBackward tid l).map DesignElement.id).Nodup := hids ▸ hid
  have hzperm : List.Perm ((sendBackward tid l).map DesignElement.zIndex)
      (l.map DesignElement.zIndex) := by
    have h1 := hpermmap.map DesignElement.zIndex
    rw [List.map_cons, List.map_cons, hfcur, hfprev] at h1
    have h2 := hperm.map DesignElement.zIndex
    rw [List.map_cons, List.map_cons] at h2
    exact (h1.trans (List.Perm.swap cur.zIndex prev.zIndex _)).trans h2.symm
  have hz' : ((sendBackward tid l).map DesignElement.zIndex).Nodup :=
    hzperm.nodup_iff.mpr hz
  have hfcmem : f cur ∈ sendBackward tid l := by
    rw [hmap]
    exact List.mem_map_of_mem f hcl
  have hrest_count : rest.countP (fun x => decide (x.zIndex < prev.zIndex)) =
      rest.countP (fun x => decide (x.zIndex < cur.zIndex)) := by
    apply List.countP_congr
    intro x hx
    obtain ⟨hxl, -, -⟩ := hrest_mem x hx
    obtain ⟨hzc, hzp⟩ := hrest_z x hx
    simp only [decide_eq_true_eq]
    constructor
    · intro h
      omega
    · intro h
      have h2 := hmax x hxl h
      exact lt_of_le_of_ne h2 hzp
  have hrank_l : rankOf l tid = rest.countP (fun x => decide (x.zIndex < cur.zIndex)) + 1 := by
    have h1 : rankOf l cur.id = l.countP (fun x => decide (x.zIndex < cur.zIndex)) :=
      rankOf_eq_countP l hz hid hcl
    rw [hcid] at h1
    rw [h1, hperm.countP_eq, List.countP_cons, List.countP_cons]
    have hc1 : (decide (cur.zIndex < cur.zIndex)) = false := by simp
    have hc2 : (decide (prev.zIndex < cur.zIndex)) = true := by simpa using hzprev
    rw [hc1, hc2]
    simp
  have hrank_l' : rankOf (sendBackward tid l) tid =
      rest.countP (fun x => decide (x.zIndex < cur.zIndex)) := by
    have h1 : rankOf (sendBackward tid l) (f cur).id =
        (sendBackward tid l).countP (fun x => decide (x.zIndex < (f cur).zIndex)) :=
      rankOf_eq_countP (sendBackward tid l) hz' hid' hfcmem
    rw [hfid cur, hcid] at h1
    have h2 : (f cur).zIndex = prev.zIndex := by rw [hfcur]
    rw [h2] at h1
    rw [h1, hpermmap.countP_eq, List.countP_cons, List.countP_cons]
    have hc1 : (decide ((f cur).zIndex < prev.zIndex)) = false := by
      rw [hfcur]
      simp
    have hc2 : (decide ((f prev).zIndex < prev.zIndex)) = false := by
      rw [hfprev]
      simp
      omega
    rw [hc1, hc2, hrest_count]
    simp
  refine ⟨?_, ?_, ?_, ⟨hpl, hzprev, hmax⟩, ?_, ?_⟩
  · intro e hel h1 h2
    have hfe : f e = e := by
      rw [hf]
      simp [h1, h2]
    rw [hmap]
    exact hfe ▸ List.mem_map_of_mem f hel
  · intro e he hetid
    rw [hmap] at he
    rcases List.mem_map.mp he with ⟨x, hx, hfx⟩
    by_cases h1 : x.id = tid
    · rw [← hfx, hf]
      simp [h1]
    · exfalso
      apply h1
      rw [← hfid x, hfx, hetid]
  · intro e he h1 h2
    rw [hmap] at he
    rcases List.mem_map.mp he with ⟨x, hx, hfx⟩
    have hxid : x.id = e.id := by rw [← hfx, hfid]
    have hx1 : ¬(x.id = tid) := by rw [hxid]; exact h1
    have hx2 : x.id = prev.id := by rw [hxid]; exact h2
    rw [← hfx, hf]
    simp [hx1, hx2, hnid]
  · rw [hrank_l', hrank_l]
  · intro a b hal hbl ha hb
    have hfa_mem : f a ∈ sendBackward tid l := by
      rw [hmap]
      exact List.mem_map_of_mem f hal
    have hfb_mem : f b ∈ sendBackward tid l := by
      rw [hmap]
      exact List.mem_map_of_mem f hbl
    have hiff1 : rankOf (sendBackward tid l) a.id < rankOf (sendBackward tid l) b.id ↔
        (f a).zIndex < (f b).zIndex := by
      have h := rankOf_lt_iff (sendBackward tid l) hz' hid' hfa_mem hfb_mem
      rwa [hfid a, hfid b] at h
    have hiff2 : rankOf l a.id < rankOf l b.id ↔ a.zIndex < b.zIndex :=
      rankOf_lt_iff l hz hid hal hbl
    rw [hiff1, hiff2]
    have hfa : f a = if a.id = prev.id then { a with zIndex := cur.zIndex } else a := by
      rw [hf]
      simp [ha]
    have hfb : f b = if b.id = prev.id then { b with zIndex := cur.zIndex } else b := by
      rw [hf]
      simp [hb]
    by_cases han : a.id = prev.id <;> by_cases hbn : b.id = prev.id
    · have ha2 : a = prev := hinj_id hal hpl han
      have hb2 : b = prev := hinj_id hbl hpl hbn
      rw [ha2, hb2]
      simp
    · have ha2 : a = prev := hinj_id hal hpl han
      rw [hfa, hfb, if_pos han, if_neg hbn, ha2]
      have hbne_c : b.zIndex ≠ cur.zIndex := fun h =>
        hb (by rw [hinj_z hbl hcl h]; exact hcid)
      show cur.zIndex < b.zIndex ↔ prev.zIndex < b.zIndex
      constructor
      · intro h2
        omega
      · intro h2
        by_contra hc
        push_neg at hc
        have h3 : b.zIndex < cur.zIndex := lt_of_le_of_ne hc hbne_c
        have h4 := hmax b hbl h3
        omega
    · have hb2 : b = prev := hinj_id hbl hpl hbn
      rw [hfa, hfb, if_neg han, if_pos hbn, hb2]
      have hane_p : a.zIndex ≠ prev.zIndex := fun h => han (congrArg DesignElement.id
        (hinj_z hal hpl h))
      show a.zIndex < cur.zIndex ↔ a.zIndex < prev.zIndex
      constructor
      · intro h2
        have h3 := hmax a hal h2
        exact lt_of_le_of_ne h3 hane_p
      · intro h2
        omega
    · rw [hfa, hfb, if_neg han, if_neg hbn]

/-- Counterexample to C6 as stated: in the stack `listDup` = [a(z=0), b(z=0),
c(z=1)] with a zIndex tie, `bringForward "a"` swaps a's zIndex with c's and
the target jumps from visual position 0 to visual position 2 — two steps, not
"exactly one visual step". -/
theorem zorder_counterexample_c6 :
    rankOf listDup "a" = 0 ∧
    rankOf (bringForward "a" listDup) "a" = 2 ∧
    ¬(rankOf (bringForward "a" listDup) "a" = rankOf listDup "a" + 1) := by
  have h1 : rankOf listDup "a" = 0 := by with_unfolding_all rfl
  have h2 : rankOf (bringForward "a" listDup) "a" = 2 := by with_unfolding_all rfl
  exact ⟨h1, h2, by rw [h1, h2]; omega⟩

/-- C6 amended: `bringForward` (resp. `sendBackward`) finds the element with
the minimal strictly-higher (resp. maximal strictly-lower) zIndex and swaps
exactly the two zIndex values, leaving every other element — and the id
sequence — untouched; when all zIndexes are pairwise distinct, the target
moves exactly one visual step in the resolved rendering order and all other
elements keep their relative visual order (with duplicate zIndexes the
one-step property can fail, see the counterexample); in particular
`bringForward` on the bottom element of the stack [A, B, C] with zIndexes
0, 1, 2 produces the rendering order [B, A, C]. -/
theorem zorder_amended_c6 :
    (∀ (tid : String) (l : List DesignElement),
      (bringForward tid l).map DesignElement.id = l.map DesignElement.id ∧
      (sendBackward tid l).map DesignElement.id = l.map DesignElement.id) ∧
    (∀ (l : List DesignElement) (tid : String) (cur next : DesignElement),
      (l.map DesignElement.id).Nodup →
      (l.map DesignElement.zIndex).Nodup →
      l.find? (fun el => decide (el.id = tid)) = some cur →
      ((l.filter (fun el => decide (cur.zIndex < el.zIndex))).mergeSort zleb).head? =
        some next →
      ((∀ e ∈ l, e.id ≠ tid → e.id ≠ next.id → e ∈ bringForward tid l) ∧
       (∀ e ∈ bringForward tid l, e.id = tid → e.zIndex = next.zIndex) ∧
       (∀ e ∈ bringForward tid l, e.id ≠ tid → e.id = next.id → e.zIndex = cur.zIndex) ∧
       (next ∈ l ∧ cur.zIndex < next.zIndex ∧
         ∀ x ∈ l, cur.zIndex < x.zIndex → next.zIndex ≤ x.zIndex) ∧
       rankOf (bringForward tid l) tid = rankOf l tid + 1 ∧
       (∀ a b, a ∈ l → b ∈ l → a.id ≠ tid → b.id ≠ tid →
         (rankOf (bringForward tid l) a.id < rankOf (bringForward tid l) b.id ↔
           rankOf l a.id < rankOf l b.id)))) ∧
    (∀ (l : List DesignElement) (tid : String) (cur prev : DesignElement),
      (l.map DesignElement.id).Nodup →
      (l.map DesignElement.zIndex).Nodup →
      l.find? (fun el => decide (el.id = tid)) = some cur →
      ((l.filter (fun el => decide (el.zIndex < cur.zIndex))).mergeSort zgeb).head? =
        some prev →
      ((∀ e ∈ l, e.id ≠ tid → e.id ≠ prev.id → e ∈ sendBackward tid l) ∧
       (∀ e ∈ sendBackward tid l, e.id = tid → e.zIndex = prev.zIndex) ∧
       (∀ e ∈ sendBackward tid l, e.id ≠ tid → e.id = prev.id → e.zIndex = cur.zIndex) ∧
       (prev ∈ l ∧ prev.zIndex < cur.zIndex ∧
         ∀ x ∈ l, x.zIndex < cur.zIndex → x.zIndex ≤ prev.zIndex) ∧
       rankOf (sendBackward tid l) tid + 1 = rankOf l tid ∧
       (∀ a b, a ∈ l → b ∈ l → a.id ≠ tid → b.id ≠ tid →
         (rankOf (sendBackward tid l) a.id < rankOf (sendBackward tid l) b.id ↔
           rankOf l a.id < rankOf l b.id)))) ∧
    (renderOrder listABC).map DesignElement.id = ["a", "b", "c"] ∧
    (renderOrder (bringForward "a" listABC)).map DesignElement.id = ["b", "a", "c"] :=
  ⟨fun tid l => zorder_map_id tid l,
   fun l tid cur next hid hz hfind hnext =>
     bringForward_spec l tid cur next hid hz hfind hnext,
   fun l tid cur prev hid hz hfind hprev =>
     sendBackward_spec l tid cur prev hid hz hfind hprev,
   by with_unfolding_all rfl,
   by with_unfolding_all rfl⟩

/-- Witness for C6 amended: on the stack [A, B, C] with zIndexes 0, 1, 2,
`bringForward "a"` raises a's rank from 0 to 1, and `sendBackward "c"`
lowers c's rank from 2 to 1. -/
theorem zorder_amended_c6_applied :
    (listABC.map DesignElement.id).Nodup ∧
    (listABC.map DesignElement.zIndex).Nodup ∧
    listABC.find? (fun el => decide (el.id = "a")) = some elemA ∧
    ((listABC.filter (fun el => decide (elemA.zIndex < el.zIndex))).mergeSort zleb).head? =
      some elemB ∧
    rankOf (bringForward "a" listABC) "a" = rankOf listABC "a" + 1 ∧
    listABC.find? (fun el => decide (el.id = "c")) = some elemC ∧
    ((listABC.filter (fun el => decide (el.zIndex < elemC.zIndex))).mergeSort zgeb).head? =
      some elemB ∧
    rankOf (sendBackward "c" listABC) "c" + 1 = rankOf listABC "c" :=
  ⟨by decide, by decide, by decide, by with_unfolding_all rfl,
   (zorder_amended_c6.2.1 listABC "a" elemA elemB (by decide) (by decide) (by decide)
     (by with_unfolding_all rfl)).2.2.2.2.1,
   by decide, by with_unfolding_all rfl,
   (zorder_amended_c6.2.2.1 listABC "c" elemC elemB (by decide) (by decide) (by decide)
     (by with_unfolding_all rfl)).2.2.2.2.1⟩
